import Mathlib

/-!
# Verification of the signal debouncer (mbuesch/debounce, src/main.c)

Shallow embedding of the timing and debounce engine of `src/main.c`
(with the build target `src/target_cncjoints.c`):

* the wraparound-safe tick ordering helpers `time_after` / `time_before`
  (main.c lines 196-197),
* the jiffies clock built from a 16-bit hardware counter, a software high
  word and the overflow-pending flag (`get_jiffies`, `TIMER1_OVF_vect`,
  main.c lines 199-253),
* the reference-counted output aggregator (`output_hw_set`,
  `output_level_inc`, `output_level_dec`, main.c lines 294-319),
* the per-connection debounce state machine (`scan_one_input_pin`,
  main.c lines 349-390) and the port initialisation (`setup_ports`,
  main.c lines 321-347),
* the startup reset-cause handling in `main` (main.c lines 418-443;
  note that the reset-cause check there is inside an `#if 0` block).

Machine integers are modelled as `Nat` with explicit `% 2^32` / `% 2^16` /
`% 2^8` where the C types wrap; the signed 32-bit cast used by
`time_after` is modelled by two's-complement wrapping on `Int`.
-/

/-- Two's-complement wrap of an integer into the `int32_t` range
`[-2^31, 2^31)`.  This is the value a 32-bit signed machine subtraction
produces. -/
def wrap32 (z : Int) : Int := (z + 2 ^ 31) % 2 ^ 32 - 2 ^ 31

/-- Reinterpretation of a `uint32_t` bit pattern (a natural number taken
mod `2^32`) as an `int32_t`, as done by the casts in `time_after`. -/
def toInt32 (n : Nat) : Int := wrap32 (n : Int)

/-- `time_after(a, b)` from main.c line 196:
`((int32_t)(b) - (int32_t)(a) < 0)`, with the subtraction wrapping in
32-bit two's complement as on the AVR target. -/
def time_after (a b : Nat) : Bool := decide (wrap32 (toInt32 b - toInt32 a) < 0)

/-- `time_before(a, b)` from main.c line 197: `time_after(b, a)`. -/
def time_before (a b : Nat) : Bool := time_after b a

/-- Arithmetic characterisation of `time_after`: it tests whether the
unsigned difference `b - a` lands in the upper half of the 32-bit circle. -/
theorem time_after_eq (a b : Nat) :
    time_after a b = decide (((b : Int) - (a : Int)) % 2 ^ 32 ≥ 2 ^ 31) := by
  have h : (wrap32 (toInt32 b - toInt32 a) < 0) ↔
      (((b : Int) - (a : Int)) % 2 ^ 32 ≥ 2 ^ 31) := by
    simp only [wrap32, toInt32]
    omega
  simp only [time_after, decide_eq_decide]
  exact h

/-- `time_after` only depends on its first argument mod `2^32`. -/
theorem time_after_mod_left (a b : Nat) :
    time_after (a % 2 ^ 32) b = time_after a b := by
  rw [time_after_eq, time_after_eq, decide_eq_decide]
  omega

/-- `time_after` only depends on its second argument mod `2^32`. -/
theorem time_after_mod_right (a b : Nat) :
    time_after a (b % 2 ^ 32) = time_after a b := by
  rw [time_after_eq, time_after_eq, decide_eq_decide]
  omega

/-- For true (unwrapped) instants `x ≤ y` at distance `0 < y - x ≤ 2^31`,
`time_after y x` is true: the helper recognises `y` as later. -/
theorem time_after_true_of_le (x y : Nat) (hle : x ≤ y) (h0 : 0 < y - x)
    (h31 : y - x ≤ 2 ^ 31) : time_after y x = true := by
  rw [time_after_eq, decide_eq_true_eq]
  omega

/-- For true (unwrapped) instants `x ≤ y` at distance `y - x < 2^31`,
`time_after x y` is false: the helper never calls the earlier tick later. -/
theorem time_after_false_of_le (x y : Nat) (hle : x ≤ y)
    (h31 : y - x < 2 ^ 31) : time_after x y = false := by
  rw [time_after_eq, decide_eq_false_iff_not]
  omega

/-- C2, first conjunct, fails at distance 0: at `a = b` both
`time_after(b,a)` and `time_before(b,a)` are false, so
`time_after(b,a) ≠ !time_before(b,a)`.  Concrete input: `a = b = 0`
(true elapsed distance 0, which the claim explicitly includes). -/
theorem C2_counterexample : ¬ (time_after 0 0 = !time_before 0 0) := by
  decide

/-- C2 (corrected): for 32-bit ticks `a`, `b` whose true elapsed distance
`d` is below `2^31`, the equivalence `time_after(b,a) = !time_before(b,a)`
holds whenever `d ≠ 0` (at `d = 0` both sides of the inner comparison are
false, so the equivalence fails), and for every `d < 2^31` (including 0)
exactly one of `time_after(a,b)`, `time_after(b,a)`, `a = b` holds. -/
theorem C2_corrected (a b d : Nat) (ha : a < 2 ^ 32) (hb : b < 2 ^ 32)
    (hd : d < 2 ^ 31)
    (hdist : b = (a + d) % 2 ^ 32 ∨ a = (b + d) % 2 ^ 32) :
    (0 < d → time_after b a = !time_before b a) ∧
    (time_after a b).toNat + (time_after b a).toNat +
      (if a = b then 1 else 0) = 1 := by
  have key : ∀ x e : Nat, x < 2 ^ 32 → e < 2 ^ 31 → 0 < e →
      time_after ((x + e) % 2 ^ 32) x = true ∧
      time_after x ((x + e) % 2 ^ 32) = false ∧ x ≠ (x + e) % 2 ^ 32 := by
    intro x e hx he hpos
    refine ⟨?_, ?_, ?_⟩
    · rw [time_after_mod_left]
      exact time_after_true_of_le x (x + e) (by omega) (by omega) (by omega)
    · rw [time_after_mod_right]
      exact time_after_false_of_le x (x + e) (by omega) (by omega)
    · omega
  rcases Nat.eq_zero_or_pos d with h0 | h0
  · subst h0
    have hab : b = a := by omega
    subst hab
    have hfalse : time_after b b = false := time_after_false_of_le b b le_rfl (by omega)
    refine ⟨fun h => absurd h (by omega), ?_⟩
    rw [hfalse]
    simp
  rcases hdist with hy | hy
  · obtain ⟨h1, h2, h3⟩ := key a d ha hd h0
    rw [← hy] at h1 h2 h3
    refine ⟨fun _ => ?_, ?_⟩
    · rw [time_before, h1, h2]
      rfl
    · rw [h1, h2]
      simp [h3]
  · obtain ⟨h1, h2, h3⟩ := key b d hb hd h0
    rw [← hy] at h1 h2 h3
    refine ⟨fun _ => ?_, ?_⟩
    · rw [time_before, h1, h2]
      rfl
    · rw [h1, h2]
      have hab : ¬ a = b := fun h => h3 h.symm
      simp [hab]

/-- Witness for C2_corrected at `a = 0`, `b = 1`, `d = 1`. -/
theorem C2_corrected_witness :
    (0 < 1 → time_after 1 0 = !time_before 1 0) ∧
    (time_after 0 1).toNat + (time_after 1 0).toNat +
      (if (0 : Nat) = 1 then 1 else 0) = 1 :=
  C2_corrected 0 1 1 (by decide) (by decide) (by decide) (Or.inl (by decide))

/-- C3: for every 32-bit tick `b` and distance `0 < d < 2^31`, with
`a = (b + d) % 2^32`, `time_after a b` is true and `time_after b a` is
false: the helper agrees with true temporal order below the `2^31`
horizon, across wraparound. -/
theorem C3_time_after_correct (b d : Nat) (hb : b < 2 ^ 32) (h0 : 0 < d)
    (hd : d < 2 ^ 31) :
    time_after ((b + d) % 2 ^ 32) b = true ∧
    time_after b ((b + d) % 2 ^ 32) = false := by
  constructor
  · rw [time_after_mod_left]
    exact time_after_true_of_le b (b + d) (by omega) (by omega) (by omega)
  · rw [time_after_mod_right]
    exact time_after_false_of_le b (b + d) (by omega) (by omega)

/-- Witness for C3 at `b = 4294967295` (the largest 32-bit tick, so the
sum wraps) and `d = 1`. -/
theorem C3_witness :
    time_after ((4294967295 + 1) % 2 ^ 32) 4294967295 = true ∧
    time_after 4294967295 ((4294967295 + 1) % 2 ^ 32) = false :=
  C3_time_after_correct 4294967295 1 (by decide) (by decide) (by decide)

/-! ## Output aggregator (`output_hw_set`, `output_level_inc`,
`output_level_dec`, main.c lines 294-319)

An output pin is modelled by its `OUTPUT_INVERT` flag (bit 0 of `flags`),
its 8-bit trigger level `level` (kept `% 2^8`), and the physical state
`pin` of its port bit. -/

/-- `struct output_pin` (main.c lines 96-104), restricted to the fields
the aggregator logic reads and writes: `flags`, the trigger level
`level`, and the port bit `pin` written through `MMIO8(out->output_port)`. -/
structure output_pin where
  flags : Nat
  level : Nat
  pin : Bool
  deriving Repr, DecidableEq

/-- `OUTPUT_INVERT` is bit 0 of an output pin's flags (main.c line 111). -/
def OUTPUT_INVERT_bit : Nat := 0

/-- The physical level that `output_hw_set` drives for a logical `state`,
after the `OUTPUT_INVERT` flip (main.c lines 297-298). -/
def out_physical (flags : Nat) (state : Bool) : Bool :=
  if Nat.testBit flags OUTPUT_INVERT_bit then !state else state

/-- `output_hw_set` (main.c lines 295-303): invert the requested state if
`OUTPUT_INVERT` is set, then drive the port bit to it. -/
def output_hw_set (out : output_pin) (state : Bool) : output_pin :=
  { out with pin := out_physical out.flags state }

/-- `output_level_inc` (main.c lines 306-311): if the level is 0, drive
the pin asserted; then increment the 8-bit level. -/
def output_level_inc (out : output_pin) : output_pin :=
  let out := if out.level = 0 then output_hw_set out true else out
  { out with level := (out.level + 1) % 2 ^ 8 }

/-- `output_level_dec` (main.c lines 314-319): decrement the 8-bit level
(wrapping); if the result is 0, drive the pin deasserted. -/
def output_level_dec (out : output_pin) : output_pin :=
  let out := { out with level := (out.level + 255) % 2 ^ 8 }
  if out.level = 0 then output_hw_set out false else out

/-- `output_level_inc` with the pin writes made observable: the second
component lists the physical values written to the port bit during the
call (same state change as `output_level_inc`). -/
def output_level_inc_ev (out : output_pin) : output_pin × List Bool :=
  let (out, w) :=
    if out.level = 0 then (output_hw_set out true, [out_physical out.flags true])
    else (out, [])
  ({ out with level := (out.level + 1) % 2 ^ 8 }, w)

/-- `output_level_dec` with the pin writes made observable. -/
def output_level_dec_ev (out : output_pin) : output_pin × List Bool :=
  let out := { out with level := (out.level + 255) % 2 ^ 8 }
  if out.level = 0 then (output_hw_set out false, [out_physical out.flags false])
  else (out, [])

theorem output_level_inc_ev_fst (out : output_pin) :
    (output_level_inc_ev out).1 = output_level_inc out := by
  unfold output_level_inc_ev output_level_inc
  by_cases h : out.level = 0 <;> simp [h]

theorem output_level_dec_ev_fst (out : output_pin) :
    (output_level_dec_ev out).1 = output_level_dec out := by
  unfold output_level_dec_ev output_level_dec
  by_cases h : (out.level + 255) % 256 = 0 <;> simp [h]

/-- Unfolded form of `output_level_inc`. -/
theorem output_level_inc_eq (out : output_pin) :
    output_level_inc out =
      ⟨out.flags, (out.level + 1) % 2 ^ 8,
       if out.level = 0 then out_physical out.flags true else out.pin⟩ := by
  unfold output_level_inc output_hw_set
  by_cases h : out.level = 0 <;> simp [h]

/-- Unfolded form of `output_level_dec`. -/
theorem output_level_dec_eq (out : output_pin) :
    output_level_dec out =
      ⟨out.flags, (out.level + 255) % 2 ^ 8,
       if (out.level + 255) % 2 ^ 8 = 0 then out_physical out.flags false
       else out.pin⟩ := by
  unfold output_level_dec output_hw_set
  by_cases h : (out.level + 255) % 256 = 0 <;> simp [h]

/-- C8: for every output whose 8-bit count is in range,
`output_level_inc` performs a pin write (driving the asserted physical
level) iff the count is 0 on entry, and `output_level_dec` performs a pin
write (driving the deasserted physical level) iff the count is 1 on
entry; every other call performs no pin write. -/
theorem C8_edge_only_pin_writes (out : output_pin) (h : out.level < 2 ^ 8) :
    ((output_level_inc_ev out).2 =
      if out.level = 0 then [out_physical out.flags true] else []) ∧
    ((output_level_dec_ev out).2 =
      if out.level = 1 then [out_physical out.flags false] else []) := by
  constructor
  · unfold output_level_inc_ev
    by_cases h0 : out.level = 0 <;> simp [h0]
  · unfold output_level_dec_ev
    by_cases h1 : out.level = 1
    · simp [h1]
    · have hne : (out.level + 255) % 256 ≠ 0 := by omega
      simp [hne, h1]

/-- Witness for C8 at a concrete output with count 1. -/
theorem C8_witness :
    ((output_level_inc_ev ⟨1, 1, true⟩).2 =
      if (1 : Nat) = 0 then [out_physical 1 true] else []) ∧
    ((output_level_dec_ev ⟨1, 1, true⟩).2 =
      if (1 : Nat) = 1 then [out_physical 1 false] else []) :=
  C8_edge_only_pin_writes ⟨1, 1, true⟩ (by decide)

/-- C10: decrementing an output whose count is 0 wraps the 8-bit count to
255, performs no pin write in that call, and the pin is not released (nor
written at all) by the next 254 decrements; only the 255th further
decrement returns the count to 0 and drives the pin to its deasserted
physical level. -/
theorem C10_underflow (out : output_pin) (h0 : out.level = 0) :
    (output_level_dec out).level = 255 ∧
    (output_level_dec_ev out).2 = [] ∧
    (output_level_dec out).pin = out.pin ∧
    (∀ k : Nat, k < 255 →
      (output_level_dec^[k] (output_level_dec out)).level = 255 - k ∧
      (output_level_dec^[k] (output_level_dec out)).pin = out.pin) ∧
    (output_level_dec^[255] (output_level_dec out)).level = 0 ∧
    (output_level_dec^[255] (output_level_dec out)).pin =
      out_physical out.flags false := by
  have hdec : output_level_dec out = ⟨out.flags, 255, out.pin⟩ := by
    rw [output_level_dec_eq, h0]
    norm_num
  have hiter : ∀ k : Nat, k ≤ 254 →
      output_level_dec^[k] (output_level_dec out) =
        ⟨out.flags, 255 - k, out.pin⟩ := by
    intro k hk
    induction k with
    | zero => simpa using hdec
    | succ n ih =>
      rw [Function.iterate_succ_apply', ih (by omega), output_level_dec_eq]
      have heq : (255 - n + 255) % 2 ^ 8 = 255 - (n + 1) := by omega
      rw [heq]
      have hne : 255 - (n + 1) ≠ 0 := by omega
      rw [if_neg hne]
  refine ⟨by rw [hdec], ?_, by rw [hdec], ?_, ?_, ?_⟩
  · unfold output_level_dec_ev
    have hne : (out.level + 255) % 256 ≠ 0 := by omega
    simp [hne]
  · intro k hk
    rw [hiter k (by omega)]
    exact ⟨rfl, rfl⟩
  · rw [show (255 : Nat) = 254 + 1 from rfl, Function.iterate_succ_apply',
      hiter 254 le_rfl, output_level_dec_eq]
    norm_num
  · rw [show (255 : Nat) = 254 + 1 from rfl, Function.iterate_succ_apply',
      hiter 254 le_rfl, output_level_dec_eq]
    norm_num [out_physical, output_hw_set]

/-- Witness for C10 at a concrete output with count 0. -/
theorem C10_witness :
    (output_level_dec ⟨0, 0, true⟩).level = 255 ∧
    (output_level_dec_ev ⟨0, 0, true⟩).2 = [] ∧
    (output_level_dec ⟨0, 0, true⟩).pin = true ∧
    (output_level_dec^[255] (output_level_dec ⟨0, 0, true⟩)).level = 0 := by
  obtain ⟨h1, h2, h3, _, h5, _⟩ := C10_underflow ⟨0, 0, true⟩ rfl
  exact ⟨h1, h2, h3, h5⟩

/-! ## Startup reset-cause handling (`main`, main.c lines 418-443, and
`emergency_shutdown`, target_cncjoints.c lines 52-59)

In the current main.c the whole reset-cause check (lines 427-439) sits
inside an `#if 0` block, so the compiled `main` never inspects `MCUSR`
and always falls through to `scan_input_pins`. -/

/-- `PORF` bit number in `MCUSR` (power-on reset flag, ATmega8/88). -/
def PORF : Nat := 0

/-- `WDRF` bit number in `MCUSR` (watchdog reset flag, ATmega8/88). -/
def WDRF : Nat := 3

/-- Whether the reset-cause check in `main` is compiled in.  In main.c
lines 427-439 the check is inside `#if 0 ... #endif`, so it is NOT
compiled. -/
def FAULT_CHECK_COMPILED : Bool := false

/-- The reset-cause test as written in the (disabled) block of `main`
(main.c lines 429-432): a major fault is detected when `PORF` is clear
and `WDRF` is set, in which case `major_fault()` runs and the scanner
loop is never entered. -/
def fault_check (mcusr : Nat) : Bool :=
  !(Nat.testBit mcusr PORF) && Nat.testBit mcusr WDRF

/-- Whether `main` reaches `scan_input_pins` for a given `MCUSR` value,
as compiled (the check is under `#if 0`, so the answer never depends on
`MCUSR`). -/
def main_enters_scanner (mcusr : Nat) : Bool :=
  if FAULT_CHECK_COMPILED && fault_check mcusr then false else true

/-- Whether `main` would reach `scan_input_pins` if the `#if 0` block
were compiled in (the behaviour the spec describes). -/
def main_enters_scanner_checked (mcusr : Nat) : Bool :=
  if fault_check mcusr then false else true

/-- `emergency_shutdown` (target_cncjoints.c lines 52-59): assert all
(active-low) limit outputs by clearing PORTC bits 5, 3 and 1. -/
def emergency_shutdown (portc : Nat) : Nat :=
  ((portc &&& 0xDF) &&& 0xF7) &&& 0xFD

/-- C9 fails on the code as written: with reset cause = watchdog (`WDRF`
set, `PORF` clear, `MCUSR = 8`), `main` still enters the scanner loop,
because the reset-cause check is compiled out (`#if 0`, main.c lines
427-439).  The claim says the loop is never entered in this case. -/
theorem C9_counterexample : main_enters_scanner 8 = true := by decide

/-- C9 (corrected): in the code as compiled, `main` enters the scanner
loop for every reset cause, including watchdog, because the fault check
is inside `#if 0`.  In the variant with the check compiled in (the
behaviour the spec describes, and the code of the disabled block), a
watchdog reset cause (`WDRF` set, `PORF` clear) prevents the scanner
loop from ever starting, and `emergency_shutdown` forces all three
fail-safe (active-low limit) outputs into their asserted state by
clearing PORTC bits 5, 3 and 1. -/
theorem C9_corrected :
    (∀ mcusr : Nat, main_enters_scanner mcusr = true) ∧
    (∀ mcusr : Nat, Nat.testBit mcusr WDRF = true →
      Nat.testBit mcusr PORF = false →
      main_enters_scanner_checked mcusr = false) ∧
    (∀ portc : Nat,
      Nat.testBit (emergency_shutdown portc) 5 = false ∧
      Nat.testBit (emergency_shutdown portc) 3 = false ∧
      Nat.testBit (emergency_shutdown portc) 1 = false) := by
  refine ⟨?_, ?_, ?_⟩
  · intro mcusr
    rfl
  · intro mcusr hw hp
    unfold main_enters_scanner_checked fault_check
    rw [hw, hp]
    rfl
  · intro portc
    unfold emergency_shutdown
    refine ⟨?_, ?_, ?_⟩ <;> (simp [Nat.testBit_and]; intro h; decide)

/-- Witness for C9_corrected: applied at `MCUSR = 8` (watchdog cause) and
`PORTC = 255`. -/
theorem C9_witness :
    main_enters_scanner 8 = true ∧
    main_enters_scanner_checked 8 = false ∧
    Nat.testBit (emergency_shutdown 255) 5 = false :=
  ⟨C9_corrected.1 8, C9_corrected.2.1 8 (by decide) (by decide),
    (C9_corrected.2.2 255).1⟩

/-! ## Debounce state machine (`scan_one_input_pin`, main.c lines 349-390)

A connection is modelled by its input flags, the index of its output pin
in the output table, the software state `input_is_asserted` and the
absolute deadline `dwell_timeout` (a `uint32_t`, kept `% 2^32`).  The
debounce times are passed as jiffies values (in the firmware they are the
compile-time constants `USEC_TO_JIFFIES(DEBOUNCE_ACTIVE_TIME)` and
`USEC_TO_JIFFIES(DEBOUNCE_DWELL_TIME)`). -/

/-- `INPUT_PULLUP` is bit 0 of an input pin's flags (main.c line 84). -/
def INPUT_PULLUP_bit : Nat := 0

/-- `INPUT_INVERT` is bit 1 of an input pin's flags (main.c line 85). -/
def INPUT_INVERT_bit : Nat := 1

/-- `struct connection` (main.c lines 120-126), restricted to what the
scan logic reads and writes: the input flags, the reference to the output
pin (as an index into the output table), and the mutable fields
`input_is_asserted` and `dwell_timeout`. -/
structure connection where
  in_flags : Nat
  outIdx : Nat
  input_is_asserted : Bool
  dwell_timeout : Nat
  deriving Repr, DecidableEq

/-- Input normalisation of `scan_one_input_pin` (main.c lines 354-357):
the raw hardware level is flipped iff `INPUT_PULLUP` xor `INPUT_INVERT`. -/
def normalize_input (flags : Nat) (raw : Bool) : Bool :=
  if Bool.xor (Nat.testBit flags INPUT_PULLUP_bit)
      (Nat.testBit flags INPUT_INVERT_bit) then !raw else raw

/-- `JIFFIES_PER_SECOND` for the 20 MHz build (main.c line 173). -/
def JIFFIES_PER_SECOND : Nat := 2500000

/-- `USEC_TO_JIFFIES` (main.c line 182): 64-bit multiply and divide,
truncated to `uint32_t`. -/
def USEC_TO_JIFFIES (usec : Nat) : Nat :=
  usec * JIFFIES_PER_SECOND / 1000000 % 2 ^ 32

/-- `DEBOUNCE_ACTIVE_TIME` for the cncjoints target
(target_cncjoints.c line 71): 200 microseconds. -/
def DEBOUNCE_ACTIVE_TIME : Nat := 200

/-- `DEBOUNCE_DWELL_TIME` for the cncjoints target
(target_cncjoints.c line 68): `MSEC_TO_USEC(100)` = 100000 microseconds. -/
def DEBOUNCE_DWELL_TIME : Nat := 100000

/-- `scan_one_input_pin` (main.c lines 349-390) acting on one connection
and its output pin.  `act` and `dwl` are the active and dwell times in
jiffies, `now` the current jiffies value and `raw` the masked hardware
input bit.  Deadline stores wrap at `2^32` like the `uint32_t` additions
in the source. -/
def scan_one_input_pin (act dwl : Nat) (conn : connection) (out : output_pin)
    (now : Nat) (raw : Bool) : connection × output_pin :=
  let hw := normalize_input conn.in_flags raw
  if conn.input_is_asserted then
    let conn :=
      if hw then { conn with dwell_timeout := (now + dwl) % 2 ^ 32 } else conn
    if hw || time_before now conn.dwell_timeout then (conn, out)
    else
      ({ conn with input_is_asserted := false,
                   dwell_timeout := (now + act) % 2 ^ 32 },
       output_level_dec out)
  else
    let conn :=
      if !hw then { conn with dwell_timeout := (now + act) % 2 ^ 32 } else conn
    if !hw || time_before now conn.dwell_timeout then (conn, out)
    else
      ({ conn with input_is_asserted := true,
                   dwell_timeout := (now + dwl) % 2 ^ 32 },
       output_level_inc out)

/-- A sequence of scans of one connection: each element is the jiffies
instant of the scan and the raw hardware input level observed there. -/
def runScans (act dwl : Nat) :
    connection × output_pin → List (Nat × Bool) → connection × output_pin
  | s, [] => s
  | s, (t, r) :: rest => runScans act dwl (scan_one_input_pin act dwl s.1 s.2 t r) rest

theorem runScans_append (act dwl : Nat) (s : connection × output_pin)
    (l₁ l₂ : List (Nat × Bool)) :
    runScans act dwl s (l₁ ++ l₂) = runScans act dwl (runScans act dwl s l₁) l₂ := by
  induction l₁ generalizing s with
  | nil => rfl
  | cons p rest ih =>
    obtain ⟨t, r⟩ := p
    simp [runScans, ih]

/-- When `INPUT_PULLUP` equals `INPUT_INVERT` (in particular for flags
`NONE`, as in every cncjoints connection), the normalisation is the
identity. -/
theorem normalize_input_id (flags : Nat)
    (h : Nat.testBit flags INPUT_PULLUP_bit = Nat.testBit flags INPUT_INVERT_bit)
    (r : Bool) : normalize_input flags r = r := by
  unfold normalize_input
  rw [h, Bool.xor_self]
  rfl

/-- Deasserted connection, input reads asserted, deadline not yet
reached: `scan_one_input_pin` changes nothing. -/
theorem scan_deasserted_wait (act dwl : Nat) (c : connection) (o : output_pin)
    (now : Nat) (raw : Bool) (hA : c.input_is_asserted = false)
    (hw : normalize_input c.in_flags raw = true)
    (hb : time_before now c.dwell_timeout = true) :
    scan_one_input_pin act dwl c o now raw = (c, o) := by
  unfold scan_one_input_pin
  rw [hw]
  simp [hA, hb]

/-- Deasserted connection, input reads asserted, deadline passed:
transition to asserted, push the deadline to `now + dwl`, increment the
output level. -/
theorem scan_deasserted_fire (act dwl : Nat) (c : connection) (o : output_pin)
    (now : Nat) (raw : Bool) (hA : c.input_is_asserted = false)
    (hw : normalize_input c.in_flags raw = true)
    (hb : time_before now c.dwell_timeout = false) :
    scan_one_input_pin act dwl c o now raw =
      ({ c with input_is_asserted := true,
                dwell_timeout := (now + dwl) % 2 ^ 32 },
       output_level_inc o) := by
  unfold scan_one_input_pin
  rw [hw]
  simp [hA, hb]

/-- Deasserted connection, input reads deasserted: only the deadline is
pushed to `now + act`. -/
theorem scan_deasserted_idle (act dwl : Nat) (c : connection) (o : output_pin)
    (now : Nat) (raw : Bool) (hA : c.input_is_asserted = false)
    (hw : normalize_input c.in_flags raw = false) :
    scan_one_input_pin act dwl c o now raw =
      ({ c with dwell_timeout := (now + act) % 2 ^ 32 }, o) := by
  unfold scan_one_input_pin
  rw [hw]
  simp [hA]

/-- Asserted connection, input reads asserted: only the deadline is
pushed to `now + dwl`. -/
theorem scan_asserted_push (act dwl : Nat) (c : connection) (o : output_pin)
    (now : Nat) (raw : Bool) (hA : c.input_is_asserted = true)
    (hw : normalize_input c.in_flags raw = true) :
    scan_one_input_pin act dwl c o now raw =
      ({ c with dwell_timeout := (now + dwl) % 2 ^ 32 }, o) := by
  unfold scan_one_input_pin
  rw [hw]
  simp [hA]

/-- Asserted connection, input reads deasserted, deadline not yet
reached: `scan_one_input_pin` changes nothing. -/
theorem scan_asserted_wait (act dwl : Nat) (c : connection) (o : output_pin)
    (now : Nat) (raw : Bool) (hA : c.input_is_asserted = true)
    (hw : normalize_input c.in_flags raw = false)
    (hb : time_before now c.dwell_timeout = true) :
    scan_one_input_pin act dwl c o now raw = (c, o) := by
  unfold scan_one_input_pin
  rw [hw]
  simp [hA, hb]

/-- Asserted connection, input reads deasserted, deadline passed:
transition to deasserted, push the deadline to `now + act`, decrement the
output level. -/
theorem scan_asserted_fire (act dwl : Nat) (c : connection) (o : output_pin)
    (now : Nat) (raw : Bool) (hA : c.input_is_asserted = true)
    (hw : normalize_input c.in_flags raw = false)
    (hb : time_before now c.dwell_timeout = false) :
    scan_one_input_pin act dwl c o now raw =
      ({ c with input_is_asserted := false,
                dwell_timeout := (now + act) % 2 ^ 32 },
       output_level_dec o) := by
  unfold scan_one_input_pin
  rw [hw]
  simp [hA, hb]

/-- A stored deadline `D % 2^32` is still in the future of `now = t` when
`t < D` and the remaining distance is at most `2^31`. -/
theorem time_before_stored_true (t D : Nat) (h : t < D) (h31 : D - t ≤ 2 ^ 31) :
    time_before t (D % 2 ^ 32) = true := by
  unfold time_before
  rw [time_after_mod_left]
  exact time_after_true_of_le t D (by omega) (by omega) h31

/-- A stored deadline `D % 2^32` has passed at `now = t` when `D ≤ t` and
the elapsed distance is below `2^31`. -/
theorem time_before_stored_false (t D : Nat) (h : D ≤ t)
    (h31 : t - D < 2 ^ 31) : time_before t (D % 2 ^ 32) = false := by
  unfold time_before
  rw [time_after_mod_left]
  exact time_after_false_of_le D t h h31

/-- A deasserted connection whose normalisation is the identity and whose
pending deadline `tp + act` has not been reached by any scan instant is
left completely unchanged by a run of asserted-input scans. -/
theorem run_deasserted_wait (act dwl tp : Nat) (c : connection)
    (o : output_pin) (hact31 : act < 2 ^ 31)
    (hfl : Nat.testBit c.in_flags INPUT_PULLUP_bit =
      Nat.testBit c.in_flags INPUT_INVERT_bit)
    (hA : c.input_is_asserted = false)
    (hT : c.dwell_timeout = (tp + act) % 2 ^ 32)
    (l : List Nat) (hl : ∀ t ∈ l, tp ≤ t ∧ t < tp + act) :
    runScans act dwl (c, o) (l.map fun t => (t, true)) = (c, o) := by
  induction l with
  | nil => rfl
  | cons t rest ih =>
    obtain ⟨htp, hlt⟩ := hl t (List.mem_cons_self t rest)
    have hscan : scan_one_input_pin act dwl c o t true = (c, o) := by
      apply scan_deasserted_wait act dwl c o t true hA
        (normalize_input_id c.in_flags hfl true)
      rw [hT]
      exact time_before_stored_true t (tp + act) hlt (by omega)
    simp only [List.map_cons, runScans, hscan]
    exact ih fun u hu => hl u (List.mem_cons_of_mem t hu)

/-- An asserted connection whose normalisation is the identity stays
asserted, with its output untouched, across any run of asserted-input
scans (each scan only pushes the dwell deadline forward). -/
theorem run_asserted_stable (act dwl : Nat) :
    ∀ (l : List Nat) (c : connection) (o : output_pin),
    Nat.testBit c.in_flags INPUT_PULLUP_bit =
      Nat.testBit c.in_flags INPUT_INVERT_bit →
    c.input_is_asserted = true →
    (runScans act dwl (c, o) (l.map fun t => (t, true))).1.input_is_asserted
        = true ∧
    (runScans act dwl (c, o) (l.map fun t => (t, true))).2 = o := by
  intro l
  induction l with
  | nil => intro c o _ hA; exact ⟨hA, rfl⟩
  | cons t rest ih =>
    intro c o hfl hA
    have hscan : scan_one_input_pin act dwl c o t true =
        ({ c with dwell_timeout := (t + dwl) % 2 ^ 32 }, o) :=
      scan_asserted_push act dwl c o t true hA
        (normalize_input_id c.in_flags hfl true)
    simp only [List.map_cons, runScans, hscan]
    exact ih { c with dwell_timeout := (t + dwl) % 2 ^ 32 } o hfl hA

/-- A deasserted connection whose normalisation is the identity stays
deasserted, with its output untouched, across any run of
deasserted-input scans (each scan only pushes the active deadline). -/
theorem run_deasserted_stable (act dwl : Nat) :
    ∀ (l : List Nat) (c : connection) (o : output_pin),
    Nat.testBit c.in_flags INPUT_PULLUP_bit =
      Nat.testBit c.in_flags INPUT_INVERT_bit →
    c.input_is_asserted = false →
    (runScans act dwl (c, o) (l.map fun t => (t, false))).1.input_is_asserted
        = false ∧
    (runScans act dwl (c, o) (l.map fun t => (t, false))).2 = o := by
  intro l
  induction l with
  | nil => intro c o _ hA; exact ⟨hA, rfl⟩
  | cons t rest ih =>
    intro c o hfl hA
    have hscan : scan_one_input_pin act dwl c o t false =
        ({ c with dwell_timeout := (t + act) % 2 ^ 32 }, o) :=
      scan_deasserted_idle act dwl c o t false hA
        (normalize_input_id c.in_flags hfl false)
    simp only [List.map_cons, runScans, hscan]
    exact ih { c with dwell_timeout := (t + act) % 2 ^ 32 } o hfl hA

/-- C5 fails on the code as written: the deadline a newly asserted input
must outlast was set `active_time` after the LAST scan that observed the
input deasserted, not after the first scan that observed it asserted.
Concrete run with `active_time = 150µs = 375` jiffies (and
`dwell_time = 100ms = 250000` jiffies): the input is scanned deasserted
at jiffy 0 (deadline 375) and first scanned asserted at `t0 = 1000`.
The claim allows the transition only at a scan with `now ≥ t0 + 375 =
1375`, but the code transitions at the scan at 1000 itself. -/
theorem C5_counterexample :
    (runScans 375 250000 (⟨0, 0, false, 0⟩, ⟨0, 0, false⟩)
      [(0, false), (1000, true)]).1.input_is_asserted = true ∧
    (runScans 375 250000 (⟨0, 0, false, 0⟩, ⟨0, 0, false⟩)
      [(0, false), (1000, true)]).2.level = 1 := by
  constructor <;> rfl

/-- C5 (corrected): with the deadline pending from its last push at a
scan instant `tp` (the last scan that observed the input deasserted, or
initialisation), a continuously asserted input leaves the connection
unchanged at every scan before `tp + active_time`, transitions it to
Asserted exactly at the first scan `t₀` with `t₀ ≥ tp + active_time`
(incrementing the output level exactly once, at that scan), and all
later asserted scans keep the state Asserted without touching the output
again. -/
theorem C5_corrected (act dwl tp : Nat) (c : connection) (o : output_pin)
    (hfl : Nat.testBit c.in_flags INPUT_PULLUP_bit =
      Nat.testBit c.in_flags INPUT_INVERT_bit)
    (hA : c.input_is_asserted = false)
    (hT : c.dwell_timeout = (tp + act) % 2 ^ 32)
    (hact31 : act < 2 ^ 31)
    (l₁ : List Nat) (hl₁ : ∀ t ∈ l₁, tp ≤ t ∧ t < tp + act)
    (t₀ : Nat) (ht₀ : tp + act ≤ t₀) (ht₀31 : t₀ - (tp + act) < 2 ^ 31) :
    runScans act dwl (c, o) (l₁.map fun t => (t, true)) = (c, o) ∧
    (scan_one_input_pin act dwl c o t₀ true).1.input_is_asserted = true ∧
    (scan_one_input_pin act dwl c o t₀ true).2 = output_level_inc o ∧
    ∀ l₂ : List Nat,
      (runScans act dwl (scan_one_input_pin act dwl c o t₀ true)
        (l₂.map fun t => (t, true))).1.input_is_asserted = true ∧
      (runScans act dwl (scan_one_input_pin act dwl c o t₀ true)
        (l₂.map fun t => (t, true))).2 = output_level_inc o := by
  have hfire : scan_one_input_pin act dwl c o t₀ true =
      ({ c with input_is_asserted := true,
                dwell_timeout := (t₀ + dwl) % 2 ^ 32 },
       output_level_inc o) := by
    apply scan_deasserted_fire act dwl c o t₀ true hA
      (normalize_input_id c.in_flags hfl true)
    rw [hT]
    exact time_before_stored_false t₀ (tp + act) ht₀ ht₀31
  refine ⟨run_deasserted_wait act dwl tp c o hact31 hfl hA hT l₁ hl₁,
    by rw [hfire], by rw [hfire], ?_⟩
  intro l₂
  rw [hfire]
  exact run_asserted_stable act dwl l₂
    { c with input_is_asserted := true,
             dwell_timeout := (t₀ + dwl) % 2 ^ 32 } (output_level_inc o) hfl rfl

/-- Witness for C5_corrected: `act = 375` (150µs), `dwl = 250000`
(100ms), deadline pushed at `tp = 0`, wait scans at 100 and 374,
transition scan at `t₀ = 375`, follow-up scan at 400. -/
theorem C5_witness :
    runScans 375 250000 (⟨0, 0, false, 375⟩, ⟨0, 0, false⟩)
      ([100, 374].map fun t => (t, true)) = (⟨0, 0, false, 375⟩, ⟨0, 0, false⟩) ∧
    (scan_one_input_pin 375 250000 ⟨0, 0, false, 375⟩ ⟨0, 0, false⟩ 375
      true).1.input_is_asserted = true ∧
    (scan_one_input_pin 375 250000 ⟨0, 0, false, 375⟩ ⟨0, 0, false⟩ 375
      true).2 = output_level_inc ⟨0, 0, false⟩ ∧
    (runScans 375 250000 (scan_one_input_pin 375 250000 ⟨0, 0, false, 375⟩
        ⟨0, 0, false⟩ 375 true)
      ([400].map fun t => (t, true))).1.input_is_asserted = true := by
  obtain ⟨h1, h2, h3, h4⟩ := C5_corrected 375 250000 0 ⟨0, 0, false, 375⟩
    ⟨0, 0, false⟩ (by decide) rfl (by decide) (by decide) [100, 374]
    (by decide) 375 (by decide) (by decide)
  exact ⟨h1, h2, h3, (h4 [400]).1⟩

/-- An asserted connection whose normalisation is the identity and whose
dwell deadline `tp + dwl` has not been reached by any scan instant is
left completely unchanged by a run of deasserted-input scans. -/
theorem run_asserted_wait (act dwl tp : Nat) (c : connection)
    (o : output_pin) (hdwl31 : dwl < 2 ^ 31)
    (hfl : Nat.testBit c.in_flags INPUT_PULLUP_bit =
      Nat.testBit c.in_flags INPUT_INVERT_bit)
    (hA : c.input_is_asserted = true)
    (hT : c.dwell_timeout = (tp + dwl) % 2 ^ 32)
    (l : List Nat) (hl : ∀ t ∈ l, tp ≤ t ∧ t < tp + dwl) :
    runScans act dwl (c, o) (l.map fun t => (t, false)) = (c, o) := by
  induction l with
  | nil => rfl
  | cons t rest ih =>
    obtain ⟨htp, hlt⟩ := hl t (List.mem_cons_self t rest)
    have hscan : scan_one_input_pin act dwl c o t false = (c, o) := by
      apply scan_asserted_wait act dwl c o t false hA
        (normalize_input_id c.in_flags hfl false)
      rw [hT]
      exact time_before_stored_true t (tp + dwl) hlt (by omega)
    simp only [List.map_cons, runScans, hscan]
    exact ih fun u hu => hl u (List.mem_cons_of_mem t hu)

/-- C7 fails on the code as written: the dwell deadline runs from the
LAST scan that observed the input asserted, not from the instant `t1` at
which the input signal deasserted.  Concrete run with `dwell_time =
100ms = 250000` jiffies: the input is scanned asserted at jiffy 0
(deadline pushed to 250000) and physically deasserts at `t1 = 100000`
(consistently with the next scan, at 250000, reading it deasserted).
The claim requires the connection to remain Asserted at every scan with
`now < t1 + 250000 = 350000`, but the code already transitions to
Deasserted (and decrements the output level from 1 to 0) at the scan at
250000. -/
theorem C7_counterexample :
    (runScans 375 250000 (⟨0, 0, true, 250000⟩, ⟨0, 1, true⟩)
      [(0, true), (250000, false)]).1.input_is_asserted = false ∧
    (runScans 375 250000 (⟨0, 0, true, 250000⟩, ⟨0, 1, true⟩)
      [(0, true), (250000, false)]).2.level = 0 := by
  constructor <;> rfl

/-- C7 (corrected): with the dwell deadline pending from its last push
at a scan instant `tp` (the last scan that observed the input asserted),
a continuously deasserted input leaves the Asserted connection and its
output completely unchanged at every scan before `tp + dwell_time`,
transitions it to Deasserted exactly at the first scan `t₀` with
`t₀ ≥ tp + dwell_time` (decrementing the output level exactly once, at
that scan), and all later deasserted scans keep the state Deasserted
without touching the output again. -/
theorem C7_corrected (act dwl tp : Nat) (c : connection) (o : output_pin)
    (hfl : Nat.testBit c.in_flags INPUT_PULLUP_bit =
      Nat.testBit c.in_flags INPUT_INVERT_bit)
    (hA : c.input_is_asserted = true)
    (hT : c.dwell_timeout = (tp + dwl) % 2 ^ 32)
    (hdwl31 : dwl < 2 ^ 31)
    (hlev : 0 < o.level) (hlev8 : o.level < 2 ^ 8)
    (l₁ : List Nat) (hl₁ : ∀ t ∈ l₁, tp ≤ t ∧ t < tp + dwl)
    (t₀ : Nat) (ht₀ : tp + dwl ≤ t₀) (ht₀31 : t₀ - (tp + dwl) < 2 ^ 31) :
    runScans act dwl (c, o) (l₁.map fun t => (t, false)) = (c, o) ∧
    (scan_one_input_pin act dwl c o t₀ false).1.input_is_asserted = false ∧
    (scan_one_input_pin act dwl c o t₀ false).2 = output_level_dec o ∧
    (scan_one_input_pin act dwl c o t₀ false).2.level = o.level - 1 ∧
    ∀ l₂ : List Nat,
      (runScans act dwl (scan_one_input_pin act dwl c o t₀ false)
        (l₂.map fun t => (t, false))).1.input_is_asserted = false ∧
      (runScans act dwl (scan_one_input_pin act dwl c o t₀ false)
        (l₂.map fun t => (t, false))).2 = output_level_dec o := by
  have hfire : scan_one_input_pin act dwl c o t₀ false =
      ({ c with input_is_asserted := false,
                dwell_timeout := (t₀ + act) % 2 ^ 32 },
       output_level_dec o) := by
    apply scan_asserted_fire act dwl c o t₀ false hA
      (normalize_input_id c.in_flags hfl false)
    rw [hT]
    exact time_before_stored_false t₀ (tp + dwl) ht₀ ht₀31
  have hlevel : (output_level_dec o).level = o.level - 1 := by
    rw [output_level_dec_eq]
    show (o.level + 255) % 2 ^ 8 = o.level - 1
    omega
  refine ⟨run_asserted_wait act dwl tp c o hdwl31 hfl hA hT l₁ hl₁,
    by rw [hfire], by rw [hfire], by rw [hfire]; exact hlevel, ?_⟩
  intro l₂
  rw [hfire]
  exact run_deasserted_stable act dwl l₂
    { c with input_is_asserted := false,
             dwell_timeout := (t₀ + act) % 2 ^ 32 } (output_level_dec o) hfl rfl

/-- Witness for C7_corrected: `act = 375`, `dwl = 250000` (100ms), dwell
deadline pushed at `tp = 0`, wait scans at 1000 and 249999, transition
scan at `t₀ = 250000`, follow-up scan at 250100. -/
theorem C7_witness :
    runScans 375 250000 (⟨0, 0, true, 250000⟩, ⟨0, 1, true⟩)
      ([1000, 249999].map fun t => (t, false)) =
      (⟨0, 0, true, 250000⟩, ⟨0, 1, true⟩) ∧
    (scan_one_input_pin 375 250000 ⟨0, 0, true, 250000⟩ ⟨0, 1, true⟩ 250000
      false).1.input_is_asserted = false ∧
    (scan_one_input_pin 375 250000 ⟨0, 0, true, 250000⟩ ⟨0, 1, true⟩ 250000
      false).2.level = 0 ∧
    (runScans 375 250000 (scan_one_input_pin 375 250000 ⟨0, 0, true, 250000⟩
        ⟨0, 1, true⟩ 250000 false)
      ([250100].map fun t => (t, false))).1.input_is_asserted = false := by
  obtain ⟨h1, h2, h3, h4, h5⟩ := C7_corrected 375 250000 0 ⟨0, 0, true, 250000⟩
    ⟨0, 1, true⟩ (by decide) rfl (by decide) (by decide) (by decide) (by decide)
    [1000, 249999] (by decide) 250000 (by decide) (by decide)
  exact ⟨h1, h2, by rw [h4]; rfl, (h5 [250100]).1⟩

/-- The raw input level seen by a scan at instant `t` when the input is
asserted exactly during the pulse `[t0, t0 + P)` and deasserted
otherwise. -/
def pulse_input (t0 P t : Nat) : Bool := decide (t0 ≤ t ∧ t < t0 + P)

/-- Core run lemma for noise rejection: a deasserted connection whose
pending deadline `tq + act` covers the pulse end `t0 + P` never fires
during a sorted sequence of scans at instants `≥ t0` that read the
pulse input, and the output is never touched. -/
theorem run_pulse_deasserted (act dwl t0 P : Nat) (hact31 : act < 2 ^ 31) :
    ∀ (ts : List Nat) (c : connection) (o : output_pin) (tq : Nat),
    Nat.testBit c.in_flags INPUT_PULLUP_bit =
      Nat.testBit c.in_flags INPUT_INVERT_bit →
    c.input_is_asserted = false →
    c.dwell_timeout = (tq + act) % 2 ^ 32 →
    t0 + P ≤ tq + act →
    (∀ t ∈ ts, t0 ≤ t ∧ tq ≤ t) →
    List.Pairwise (· ≤ ·) ts →
    ∀ n : Nat,
      (runScans act dwl (c, o)
        ((ts.take n).map fun t => (t, pulse_input t0 P t))).1.input_is_asserted
          = false ∧
      (runScans act dwl (c, o)
        ((ts.take n).map fun t => (t, pulse_input t0 P t))).2 = o := by
  intro ts
  induction ts with
  | nil =>
    intro c o tq _ hA _ _ _ _ n
    rw [List.take_nil]
    exact ⟨hA, rfl⟩
  | cons t rest ih =>
    intro c o tq hfl hA hT hcov hts hsort n
    match n with
    | 0 => exact ⟨hA, rfl⟩
    | Nat.succ m =>
      obtain ⟨ht0t, htqt⟩ := hts t (List.mem_cons_self t rest)
      have hsort' : List.Pairwise (· ≤ ·) rest := (List.pairwise_cons.mp hsort).2
      have hhead : ∀ u ∈ rest, t ≤ u := (List.pairwise_cons.mp hsort).1
      rw [List.take_succ_cons, List.map_cons]
      by_cases hp : t < t0 + P
      · have hraw : pulse_input t0 P t = true := by
          simp [pulse_input, ht0t, hp]
        have hscan : scan_one_input_pin act dwl c o t (pulse_input t0 P t) =
            (c, o) := by
          rw [hraw]
          apply scan_deasserted_wait act dwl c o t true hA
            (normalize_input_id c.in_flags hfl true)
          rw [hT]
          exact time_before_stored_true t (tq + act) (by omega) (by omega)
        simp only [runScans, hscan]
        exact ih c o tq hfl hA hT hcov
          (fun u hu => hts u (List.mem_cons_of_mem t hu)) hsort' m
      · have hraw : pulse_input t0 P t = false := by
          simp [pulse_input]
          omega
        have hscan : scan_one_input_pin act dwl c o t (pulse_input t0 P t) =
            ({ c with dwell_timeout := (t + act) % 2 ^ 32 }, o) := by
          rw [hraw]
          exact scan_deasserted_idle act dwl c o t false hA
            (normalize_input_id c.in_flags hfl false)
        simp only [runScans, hscan]
        exact ih { c with dwell_timeout := (t + act) % 2 ^ 32 } o t hfl hA rfl
          (by omega)
          (fun u hu => ⟨(hts u (List.mem_cons_of_mem t hu)).1, hhead u hu⟩)
          hsort' m

/-- C6 fails on the code as written: whether a short pulse is rejected
depends on the deadline pending from the last deasserted scan, and with
arbitrary scan instants that deadline may already have expired when the
pulse arrives.  Concrete run with `active_time = 150µs` and
`dwell_time = 100ms`: the input is scanned deasserted at jiffy 0
(deadline 375), then a 50µs pulse (125 jiffies) asserted on
`[900, 1025)` is scanned at 900 and 1000 and the released input at 1100.
The scan at 900 already fires the transition (900 ≥ 375): the connection
becomes Asserted and the output level changes, although the input was
asserted for only 50µs. -/
theorem C6_counterexample :
    (runScans (USEC_TO_JIFFIES 150) (USEC_TO_JIFFIES 100000)
      (⟨0, 0, false, 0⟩, ⟨0, 0, false⟩)
      [(0, pulse_input 900 (USEC_TO_JIFFIES 50) 0),
       (900, pulse_input 900 (USEC_TO_JIFFIES 50) 900),
       (1000, pulse_input 900 (USEC_TO_JIFFIES 50) 1000),
       (1100, pulse_input 900 (USEC_TO_JIFFIES 50) 1100)]).1.input_is_asserted
        = true ∧
    (runScans (USEC_TO_JIFFIES 150) (USEC_TO_JIFFIES 100000)
      (⟨0, 0, false, 0⟩, ⟨0, 0, false⟩)
      [(0, pulse_input 900 (USEC_TO_JIFFIES 50) 0),
       (900, pulse_input 900 (USEC_TO_JIFFIES 50) 900),
       (1000, pulse_input 900 (USEC_TO_JIFFIES 50) 1000),
       (1100, pulse_input 900 (USEC_TO_JIFFIES 50) 1100)]).2.level = 1 := by
  constructor <;> decide

/-- C6 (corrected): with `active_time` jiffies `act < 2^31`, a pulse
asserted during `[t0, t0 + P)` and released afterwards never transitions
a Deasserted connection to Asserted and never touches its output,
provided the deadline pending at the pulse start — set `act` after the
last deasserted observation at scan instant `tp ≤ t0` — covers the pulse
end (`t0 + P ≤ tp + act`; for the claim's 150µs active time and 50µs
pulse this holds whenever the input was scanned deasserted within 100µs
before the pulse).  This holds at every prefix of any sorted scan
sequence at instants `≥ t0`. -/
theorem C6_corrected (act dwl tp t0 P : Nat) (c : connection) (o : output_pin)
    (hfl : Nat.testBit c.in_flags INPUT_PULLUP_bit =
      Nat.testBit c.in_flags INPUT_INVERT_bit)
    (hA : c.input_is_asserted = false)
    (hT : c.dwell_timeout = (tp + act) % 2 ^ 32)
    (hact31 : act < 2 ^ 31)
    (htp : tp ≤ t0)
    (hcov : t0 + P ≤ tp + act)
    (ts : List Nat) (hts : ∀ t ∈ ts, t0 ≤ t)
    (hsort : List.Pairwise (· ≤ ·) ts) :
    ∀ n : Nat,
      (runScans act dwl (c, o)
        ((ts.take n).map fun t => (t, pulse_input t0 P t))).1.input_is_asserted
          = false ∧
      (runScans act dwl (c, o)
        ((ts.take n).map fun t => (t, pulse_input t0 P t))).2 = o :=
  run_pulse_deasserted act dwl t0 P hact31 ts c o tp hfl hA hT hcov
    (fun t ht => ⟨hts t ht, le_trans htp (hts t ht)⟩) hsort

/-- Witness for C6_corrected: 150µs active time (375 jiffies), 50µs
pulse (125 jiffies) starting at `t0 = 100` with the deadline pushed at
`tp = 0`, scans at 100 and 200 (in the pulse) and 300 (released). -/
theorem C6_witness :
    (runScans 375 250000 (⟨0, 0, false, 375⟩, ⟨0, 0, false⟩)
      (([100, 200, 300].take 3).map fun t =>
        (t, pulse_input 100 125 t))).1.input_is_asserted = false ∧
    (runScans 375 250000 (⟨0, 0, false, 375⟩, ⟨0, 0, false⟩)
      (([100, 200, 300].take 3).map fun t =>
        (t, pulse_input 100 125 t))).2 = ⟨0, 0, false⟩ :=
  C6_corrected 375 250000 0 100 125 ⟨0, 0, false, 375⟩ ⟨0, 0, false⟩
    (by decide) rfl (by decide) (by decide) (by decide) (by decide)
    [100, 200, 300] (by decide) (by decide) 3

/-! ## The aggregator invariant over the whole connection table
(`setup_ports` main.c lines 321-347, `scan_one_input_pin` over the
connection array as driven by `scan_input_pins`, main.c lines 392-407)

The global state is the connection table plus the output-pin table;
connections address their (possibly shared) output by index, mirroring
the `conn->out` pointers into the statically allocated output pins. -/

/-- The global state: the `connections[]` array and the output pins it
points into. -/
structure DebounceState where
  conns : List connection
  outs : List output_pin
  deriving Repr, DecidableEq

/-- Dereference an output index (a `conn->out` pointer). -/
def getOut (outs : List output_pin) (j : Nat) : output_pin :=
  outs.getD j ⟨0, 0, false⟩

/-- One call of `scan_one_input_pin(&connections[i], now)` on the global
state (out-of-range `i` leaves the state unchanged; `scan_input_pins`
only produces in-range calls). -/
def scan_step (act dwl : Nat) (s : DebounceState) (i now : Nat)
    (raw : Bool) : DebounceState :=
  match s.conns[i]? with
  | none => s
  | some c =>
    let p := scan_one_input_pin act dwl c (getOut s.outs c.outIdx) now raw
    { conns := s.conns.set i p.1, outs := s.outs.set c.outIdx p.2 }

/-- The per-connection part of the `setup_ports` loop body (main.c lines
344-345): clear `input_is_asserted` and arm the active deadline. -/
def setup_conn (now act : Nat) (c : connection) : connection :=
  { c with input_is_asserted := false,
           dwell_timeout := (now + act) % 2 ^ 32 }

/-- The per-output part of the `setup_ports` loop body (main.c lines
340-342): clear the trigger level and drive the pin deasserted. -/
def setup_out (o : output_pin) : output_pin :=
  output_hw_set { o with level := 0 } false

/-- The output-table effect of the `setup_ports` loop, processed in
connection order (an output shared by several connections is simply
reset more than once, as in the C loop). -/
def setup_outs : List connection → List output_pin → List output_pin
  | [], outs => outs
  | c :: cs, outs =>
    setup_outs cs (outs.set c.outIdx (setup_out (getOut outs c.outIdx)))

/-- `setup_ports` (main.c lines 321-347) on the global state. -/
def setup_ports (now act : Nat) (s : DebounceState) : DebounceState :=
  { conns := s.conns.map (setup_conn now act),
    outs := setup_outs s.conns s.outs }

/-- States reachable from `init` by any sequence of scan steps, each with
an arbitrary connection index, jiffies instant and raw input level. -/
inductive Reach (act dwl : Nat) (init : DebounceState) : DebounceState → Prop
  | base : Reach act dwl init init
  | step (s : DebounceState) (i now : Nat) (raw : Bool) :
      Reach act dwl init s → Reach act dwl init (scan_step act dwl s i now raw)

/-- Number of connections referencing output `j` whose software state is
asserted. -/
def countAsserted (conns : List connection) (j : Nat) : Nat :=
  conns.countP fun c => c.input_is_asserted && c.outIdx == j

/-- The aggregator invariant of the claim: every output's trigger level
equals the number of asserted connections referencing it, and its
physical pin is the `OUTPUT_INVERT`-adjusted image of `level > 0`. -/
def AggInv (s : DebounceState) : Prop :=
  ∀ j, j < s.outs.length →
    (getOut s.outs j).level = countAsserted s.conns j ∧
    (getOut s.outs j).pin =
      out_physical (getOut s.outs j).flags
        (decide (0 < countAsserted s.conns j))

/-- Auxiliary invariant carried through the induction: well-formed output
references, a table small enough for the 8-bit counts, and `AggInv`. -/
def GoodState (s : DebounceState) : Prop :=
  (∀ c ∈ s.conns, c.outIdx < s.outs.length) ∧
  s.conns.length ≤ 255 ∧ AggInv s

theorem getD_set_self {α : Type} :
    ∀ (l : List α) (i : Nat) (x d : α), i < l.length →
      (l.set i x).getD i d = x := by
  intro l
  induction l with
  | nil => intro i x d h; simp at h
  | cons a t ih =>
    intro i x d h
    match i with
    | 0 => rfl
    | Nat.succ k =>
      simp only [List.set_cons_succ, List.getD_cons_succ]
      exact ih k x d (by simpa using h)

theorem getD_set_ne {α : Type} :
    ∀ (l : List α) (i j : Nat) (x d : α), i ≠ j →
      (l.set i x).getD j d = l.getD j d := by
  intro l
  induction l with
  | nil => intro i j x d _; simp [List.set_nil]
  | cons a t ih =>
    intro i j x d hne
    match i, j with
    | 0, 0 => exact absurd rfl hne
    | 0, Nat.succ k => rfl
    | Nat.succ m, 0 => rfl
    | Nat.succ m, Nat.succ k =>
      simp only [List.set_cons_succ, List.getD_cons_succ]
      exact ih m k x d (fun h => hne (by rw [h]))

theorem countP_set_aux {α : Type} (p : α → Bool) :
    ∀ (l : List α) (i : Nat) (x : α) (h : i < l.length),
      (l.set i x).countP p + (if p l[i] then 1 else 0) =
        l.countP p + (if p x then 1 else 0) := by
  intro l
  induction l with
  | nil => intro i x h; simp at h
  | cons a t ih =>
    intro i x h
    match i with
    | 0 =>
      cases hpa : p a <;> cases hpx : p x <;>
        simp [List.countP_cons, hpa, hpx]
    | Nat.succ k =>
      have hk : k < t.length := by simpa using h
      have := ih k x hk
      cases hpa : p a <;>
        simp only [List.set_cons_succ, List.countP_cons, hpa,
          List.getElem_cons_succ] <;>
        omega

/-- Exhaustive outcome analysis of one `scan_one_input_pin` call: either
no transition happens and the output is returned untouched, or the
connection transitions Deasserted→Asserted with `output_level_inc`, or
Asserted→Deasserted with `output_level_dec`.  In every case the
connection's configuration fields (`in_flags`, `outIdx`) are preserved. -/
theorem scan_one_cases (act dwl : Nat) (c : connection) (o : output_pin)
    (now : Nat) (raw : Bool) :
    (∃ c', scan_one_input_pin act dwl c o now raw = (c', o) ∧
      c'.input_is_asserted = c.input_is_asserted ∧
      c'.outIdx = c.outIdx ∧ c'.in_flags = c.in_flags) ∨
    (c.input_is_asserted = false ∧
      ∃ c', scan_one_input_pin act dwl c o now raw = (c', output_level_inc o) ∧
        c'.input_is_asserted = true ∧
        c'.outIdx = c.outIdx ∧ c'.in_flags = c.in_flags) ∨
    (c.input_is_asserted = true ∧
      ∃ c', scan_one_input_pin act dwl c o now raw = (c', output_level_dec o) ∧
        c'.input_is_asserted = false ∧
        c'.outIdx = c.outIdx ∧ c'.in_flags = c.in_flags) := by
  cases hA : c.input_is_asserted <;>
    cases hw : normalize_input c.in_flags raw
  · left
    exact ⟨{ c with dwell_timeout := (now + act) % 2 ^ 32 },
      scan_deasserted_idle act dwl c o now raw hA hw, by simp [hA], rfl, rfl⟩
  · cases hb : time_before now c.dwell_timeout
    · right; left
      exact ⟨rfl, { c with input_is_asserted := true,
                           dwell_timeout := (now + dwl) % 2 ^ 32 },
        scan_deasserted_fire act dwl c o now raw hA hw hb, rfl, rfl, rfl⟩
    · left
      exact ⟨c, scan_deasserted_wait act dwl c o now raw hA hw hb, hA, rfl, rfl⟩
  · cases hb : time_before now c.dwell_timeout
    · right; right
      exact ⟨rfl, { c with input_is_asserted := false,
                           dwell_timeout := (now + act) % 2 ^ 32 },
        scan_asserted_fire act dwl c o now raw hA hw hb, rfl, rfl, rfl⟩
    · left
      exact ⟨c, scan_asserted_wait act dwl c o now raw hA hw hb, hA, rfl, rfl⟩
  · left
    exact ⟨{ c with dwell_timeout := (now + dwl) % 2 ^ 32 },
      scan_asserted_push act dwl c o now raw hA hw, by simp [hA], rfl, rfl⟩

/-- `countAsserted` after updating connection `i`, as a balance
equation. -/
theorem countAsserted_set (conns : List connection) (i : Nat)
    (c' : connection) (h : i < conns.length) (j : Nat) :
    countAsserted (conns.set i c') j +
      (if conns[i].input_is_asserted && conns[i].outIdx == j then 1 else 0) =
    countAsserted conns j +
      (if c'.input_is_asserted && c'.outIdx == j then 1 else 0) := by
  unfold countAsserted
  exact countP_set_aux (fun c => c.input_is_asserted && c.outIdx == j) conns i c' h

theorem countAsserted_le (conns : List connection) (j : Nat) :
    countAsserted conns j ≤ conns.length :=
  List.countP_le_length _

theorem countAsserted_pos (conns : List connection) (i : Nat)
    (h : i < conns.length) (j : Nat)
    (hp : conns[i].input_is_asserted = true) (hj : conns[i].outIdx = j) :
    0 < countAsserted conns j := by
  rw [countAsserted, List.countP_pos_iff]
  exact ⟨conns[i], List.getElem_mem h, by rw [hp, hj]; simp⟩

theorem scan_step_eq_none (act dwl : Nat) (s : DebounceState) (i now : Nat)
    (raw : Bool) (hci : s.conns[i]? = none) :
    scan_step act dwl s i now raw = s := by
  unfold scan_step
  rw [hci]

theorem scan_step_eq_some (act dwl : Nat) (s : DebounceState) (i now : Nat)
    (raw : Bool) (c : connection) (hci : s.conns[i]? = some c) :
    scan_step act dwl s i now raw =
      { conns := s.conns.set i
          (scan_one_input_pin act dwl c (getOut s.outs c.outIdx) now raw).1,
        outs := s.outs.set c.outIdx
          (scan_one_input_pin act dwl c (getOut s.outs c.outIdx) now raw).2 } := by
  unfold scan_step
  rw [hci]

theorem GoodState_step (act dwl : Nat) (s : DebounceState) (i now : Nat)
    (raw : Bool) (hg : GoodState s) :
    GoodState (scan_step act dwl s i now raw) := by
  obtain ⟨hwf, hlen, hinv⟩ := hg
  cases hci : s.conns[i]? with
  | none => rw [scan_step_eq_none act dwl s i now raw hci]; exact ⟨hwf, hlen, hinv⟩
  | some c =>
    rw [scan_step_eq_some act dwl s i now raw c hci]
    obtain ⟨hi, hc⟩ := List.getElem?_eq_some.mp hci
    have hcmem : c ∈ s.conns := hc ▸ List.getElem_mem hi
    have hj : c.outIdx < s.outs.length := hwf c hcmem
    have hodef : getOut s.outs c.outIdx = getOut s.outs c.outIdx := rfl
    rcases scan_one_cases act dwl c (getOut s.outs c.outIdx) now raw with
      ⟨c', hs, hA', hO', hF'⟩ | ⟨hA, c', hs, hA', hO', hF'⟩ |
      ⟨hA, c', hs, hA', hO', hF'⟩
    all_goals rw [hs]
    -- Case 1: no transition, output returned unchanged.
    · refine ⟨?_, ?_, ?_⟩
      · intro d hd
        rw [List.length_set]
        rcases List.mem_or_eq_of_mem_set hd with hmem | hdc
        · exact hwf d hmem
        · rw [hdc, hO']
          exact hj
      · rw [List.length_set]
        exact hlen
      · intro j hj'
        rw [List.length_set] at hj'
        have hcount : countAsserted (s.conns.set i c') j =
            countAsserted s.conns j := by
          have hb := countAsserted_set s.conns i c' hi j
          rw [hc, hA', hO'] at hb
          omega
        have hval : getOut (s.outs.set c.outIdx (getOut s.outs c.outIdx)) j =
            getOut s.outs j := by
          by_cases hjj : c.outIdx = j
          · rw [← hjj]
            exact getD_set_self s.outs c.outIdx (getOut s.outs c.outIdx)
              ⟨0, 0, false⟩ hj
          · exact getD_set_ne s.outs c.outIdx j _ ⟨0, 0, false⟩ hjj
        rw [hcount]
        show (getOut (s.outs.set c.outIdx (getOut s.outs c.outIdx)) j).level =
            countAsserted s.conns j ∧ _
        rw [hval]
        exact hinv j hj'
    -- Case 2: Deasserted → Asserted, output incremented.
    · refine ⟨?_, ?_, ?_⟩
      · intro d hd
        rw [List.length_set]
        rcases List.mem_or_eq_of_mem_set hd with hmem | hdc
        · exact hwf d hmem
        · rw [hdc, hO']
          exact hj
      · rw [List.length_set]
        exact hlen
      · intro j hj'
        rw [List.length_set] at hj'
        have hb := countAsserted_set s.conns i c' hi j
        rw [hc] at hb
        have hpc : (c.input_is_asserted && c.outIdx == j) = false := by
          rw [hA]
          rfl
        rw [hpc] at hb
        by_cases hjj : j = c.outIdx
        · subst hjj
          have hpc' : (c'.input_is_asserted && c'.outIdx == c.outIdx) = true := by
            rw [hA', hO']
            simp
          rw [hpc'] at hb
          simp at hb
          have hcount : countAsserted (s.conns.set i c') c.outIdx =
              countAsserted s.conns c.outIdx + 1 := by omega
          have hub : countAsserted (s.conns.set i c') c.outIdx ≤ 255 := by
            have := countAsserted_le (s.conns.set i c') c.outIdx
            rw [List.length_set] at this
            omega
          have hval : getOut (s.outs.set c.outIdx
              (output_level_inc (getOut s.outs c.outIdx))) c.outIdx =
              output_level_inc (getOut s.outs c.outIdx) :=
            getD_set_self s.outs c.outIdx _ ⟨0, 0, false⟩ hj
          obtain ⟨hlev, hpin⟩ := hinv c.outIdx hj'
          rw [hval, hcount, output_level_inc_eq]
          constructor
          · show ((getOut s.outs c.outIdx).level + 1) % 2 ^ 8 =
              countAsserted s.conns c.outIdx + 1
            rw [hlev]
            omega
          · show (if (getOut s.outs c.outIdx).level = 0 then
                out_physical (getOut s.outs c.outIdx).flags true
              else (getOut s.outs c.outIdx).pin) =
              out_physical (getOut s.outs c.outIdx).flags
                (decide (0 < countAsserted s.conns c.outIdx + 1))
            have hdec : decide (0 < countAsserted s.conns c.outIdx + 1) = true := by
              simp
            rw [hdec]
            by_cases h0 : (getOut s.outs c.outIdx).level = 0
            · rw [if_pos h0]
            · rw [if_neg h0, hpin]
              have : decide (0 < countAsserted s.conns c.outIdx) = true := by
                rw [hlev] at h0
                simp
                omega
              rw [this]
        · have hpc' : (c'.input_is_asserted && c'.outIdx == j) = false := by
            rw [hO']
            have : (c.outIdx == j) = false := by
              simp
              exact fun h => hjj h.symm
            rw [this, Bool.and_false]
          rw [hpc'] at hb
          have hcount : countAsserted (s.conns.set i c') j =
              countAsserted s.conns j := by omega
          have hval : getOut (s.outs.set c.outIdx
              (output_level_inc (getOut s.outs c.outIdx))) j =
              getOut s.outs j :=
            getD_set_ne s.outs c.outIdx j _ ⟨0, 0, false⟩
              (fun h => hjj h.symm)
          rw [hcount, hval]
          exact hinv j hj'
    -- Case 3: Asserted → Deasserted, output decremented.
    · refine ⟨?_, ?_, ?_⟩
      · intro d hd
        rw [List.length_set]
        rcases List.mem_or_eq_of_mem_set hd with hmem | hdc
        · exact hwf d hmem
        · rw [hdc, hO']
          exact hj
      · rw [List.length_set]
        exact hlen
      · intro j hj'
        rw [List.length_set] at hj'
        have hb := countAsserted_set s.conns i c' hi j
        rw [hc] at hb
        by_cases hjj : j = c.outIdx
        · subst hjj
          have hpos : 0 < countAsserted s.conns c.outIdx :=
            countAsserted_pos s.conns i hi c.outIdx (by rw [hc]; exact hA)
              (by rw [hc])
          have hub : countAsserted s.conns c.outIdx ≤ 255 := by
            have := countAsserted_le s.conns c.outIdx
            omega
          have hpc : (c.input_is_asserted && c.outIdx == c.outIdx) = true := by
            rw [hA]
            simp
          have hpc' : (c'.input_is_asserted && c'.outIdx == c.outIdx) = false := by
            rw [hA']
            rfl
          rw [hpc, hpc'] at hb
          simp at hb
          have hcount : countAsserted (s.conns.set i c') c.outIdx =
              countAsserted s.conns c.outIdx - 1 := by omega
          have hval : getOut (s.outs.set c.outIdx
              (output_level_dec (getOut s.outs c.outIdx))) c.outIdx =
              output_level_dec (getOut s.outs c.outIdx) :=
            getD_set_self s.outs c.outIdx _ ⟨0, 0, false⟩ hj
          obtain ⟨hlev, hpin⟩ := hinv c.outIdx hj'
          rw [hval, hcount, output_level_dec_eq]
          have hlroll : ((getOut s.outs c.outIdx).level + 255) % 2 ^ 8 =
              countAsserted s.conns c.outIdx - 1 := by
            rw [hlev]
            omega
          constructor
          · exact hlroll
          · show (if ((getOut s.outs c.outIdx).level + 255) % 2 ^ 8 = 0 then
                out_physical (getOut s.outs c.outIdx).flags false
              else (getOut s.outs c.outIdx).pin) =
              out_physical (getOut s.outs c.outIdx).flags
                (decide (0 < countAsserted s.conns c.outIdx - 1))
            rw [hlroll]
            by_cases h1 : countAsserted s.conns c.outIdx = 1
            · rw [h1]
              simp
            · have hgt : 1 < countAsserted s.conns c.outIdx := by omega
              have hne : countAsserted s.conns c.outIdx - 1 ≠ 0 := by omega
              rw [if_neg hne, hpin]
              have hd1 : decide (0 < countAsserted s.conns c.outIdx) = true := by
                simp
                omega
              have hd2 : decide (0 < countAsserted s.conns c.outIdx - 1) = true := by
                simp
                omega
              rw [hd1, hd2]
        · have hpcs : (c.input_is_asserted && c.outIdx == j) =
              (c'.input_is_asserted && c'.outIdx == j) := by
            rw [hO']
            have : (c.outIdx == j) = false := by
              simp
              exact fun h => hjj h.symm
            rw [this, Bool.and_false, Bool.and_false]
          rw [hpcs] at hb
          have hcount : countAsserted (s.conns.set i c') j =
              countAsserted s.conns j := by omega
          have hval : getOut (s.outs.set c.outIdx
              (output_level_dec (getOut s.outs c.outIdx))) j =
              getOut s.outs j :=
            getD_set_ne s.outs c.outIdx j _ ⟨0, 0, false⟩
              (fun h => hjj h.symm)
          rw [hcount, hval]
          exact hinv j hj'

/-- An output pin in its `setup_ports` reset state: level 0 and pin
driven to the deasserted physical level. -/
def IsReset (o : output_pin) : Prop :=
  o.level = 0 ∧ o.pin = out_physical o.flags false

theorem set_oob {α : Type} :
    ∀ (l : List α) (i : Nat) (x : α), l.length ≤ i → l.set i x = l := by
  intro l
  induction l with
  | nil => intro i x _; rfl
  | cons a t ih =>
    intro i x h
    match i with
    | 0 => simp at h
    | Nat.succ k =>
      simp only [List.set_cons_succ]
      rw [ih k x (by simpa using h)]

theorem setup_out_isReset (o : output_pin) : IsReset (setup_out o) := by
  unfold setup_out output_hw_set IsReset
  exact ⟨rfl, rfl⟩

theorem setup_outs_length :
    ∀ (cs : List connection) (outs : List output_pin),
      (setup_outs cs outs).length = outs.length := by
  intro cs
  induction cs with
  | nil => intro outs; rfl
  | cons c cs ih =>
    intro outs
    rw [setup_outs, ih, List.length_set]

theorem setup_outs_entry :
    ∀ (cs : List connection) (outs : List output_pin) (j : Nat),
      getOut (setup_outs cs outs) j = getOut outs j ∨
      IsReset (getOut (setup_outs cs outs) j) := by
  intro cs
  induction cs with
  | nil => intro outs j; left; rfl
  | cons c cs ih =>
    intro outs j
    rw [setup_outs]
    rcases ih (outs.set c.outIdx (setup_out (getOut outs c.outIdx))) j with
      h | h
    · rw [h]
      by_cases hcj : c.outIdx = j
      · by_cases hin : c.outIdx < outs.length
        · right
          rw [← hcj]
          have hgs : getOut (outs.set c.outIdx
              (setup_out (getOut outs c.outIdx))) c.outIdx =
              setup_out (getOut outs c.outIdx) :=
            getD_set_self outs c.outIdx _ ⟨0, 0, false⟩ hin
          rw [hgs]
          exact setup_out_isReset _
        · left
          rw [set_oob outs c.outIdx _ (by omega)]
      · left
        exact getD_set_ne outs c.outIdx j _ ⟨0, 0, false⟩ hcj
    · right
      exact h

theorem setup_outs_reset :
    ∀ (cs : List connection) (outs : List output_pin) (j : Nat),
      j < outs.length → (∃ c ∈ cs, c.outIdx = j) →
      IsReset (getOut (setup_outs cs outs) j) := by
  intro cs
  induction cs with
  | nil =>
    intro outs j _ hex
    obtain ⟨c, hc, _⟩ := hex
    simp at hc
  | cons c cs ih =>
    intro outs j hj hex
    obtain ⟨d, hd, hdj⟩ := hex
    rw [setup_outs]
    rcases List.mem_cons.mp hd with rfl | hd'
    · have hv : getOut (outs.set d.outIdx (setup_out (getOut outs d.outIdx)))
          j = setup_out (getOut outs d.outIdx) := by
        rw [← hdj]
        exact getD_set_self outs d.outIdx _ ⟨0, 0, false⟩ (hdj ▸ hj)
      rcases setup_outs_entry cs
          (outs.set d.outIdx (setup_out (getOut outs d.outIdx))) j with h | h
      · rw [h, hv]
        exact setup_out_isReset _
      · exact h
    · exact ih (outs.set c.outIdx (setup_out (getOut outs c.outIdx))) j
        (by rw [List.length_set]; exact hj) ⟨d, hd', hdj⟩

theorem countAsserted_setup (conns : List connection) (now act j : Nat) :
    countAsserted (conns.map (setup_conn now act)) j = 0 := by
  rw [countAsserted, List.countP_eq_zero]
  intro a ha
  obtain ⟨c, _, rfl⟩ := List.mem_map.mp ha
  simp [setup_conn]

theorem GoodState_setup (now act : Nat) (s : DebounceState)
    (hwf : ∀ c ∈ s.conns, c.outIdx < s.outs.length)
    (hlen : s.conns.length ≤ 255)
    (href : ∀ j, j < s.outs.length → ∃ c ∈ s.conns, c.outIdx = j) :
    GoodState (setup_ports now act s) := by
  refine ⟨?_, ?_, ?_⟩
  · intro d hd
    obtain ⟨c, hc, rfl⟩ := List.mem_map.mp hd
    show (setup_conn now act c).outIdx < (setup_outs s.conns s.outs).length
    rw [setup_outs_length]
    exact hwf c hc
  · show (s.conns.map (setup_conn now act)).length ≤ 255
    rw [List.length_map]
    exact hlen
  · intro j hj
    have hj' : j < s.outs.length := by
      rw [show (setup_ports now act s).outs = setup_outs s.conns s.outs
        from rfl, setup_outs_length] at hj
      exact hj
    have hreset := setup_outs_reset s.conns s.outs j hj' (href j hj')
    have hcount := countAsserted_setup s.conns now act j
    show (getOut (setup_outs s.conns s.outs) j).level =
        countAsserted (s.conns.map (setup_conn now act)) j ∧ _
    rw [hcount]
    refine ⟨hreset.1, ?_⟩
    show (getOut (setup_outs s.conns s.outs) j).pin =
      out_physical (getOut (setup_outs s.conns s.outs) j).flags
        (decide (0 < countAsserted (s.conns.map (setup_conn now act)) j))
    rw [hcount]
    simpa using hreset.2

theorem GoodState_reach (act dwl : Nat) (init s : DebounceState)
    (h : Reach act dwl init s) (hg : GoodState init) : GoodState s := by
  induction h with
  | base => exact hg
  | step s i now raw _ ih => exact GoodState_step act dwl s i now raw ih

/-- C1: for every connection/output configuration with in-range output
references, at most 255 connections (the 8-bit count cannot saturate;
the fixed cncjoints table has 9) and every output referenced by at least
one connection (true of the fixed table), every state reachable by
`setup_ports` followed by any sequence of `scan_one_input_pin` steps
satisfies the aggregator invariant: each output's trigger level equals
the number of asserted connections referencing it, and its physical pin
equals the `OUTPUT_INVERT`-adjusted image of `level > 0`. -/
theorem C1_aggregator_invariant (act dwl now₀ : Nat) (s₀ s : DebounceState)
    (hwf : ∀ c ∈ s₀.conns, c.outIdx < s₀.outs.length)
    (hlen : s₀.conns.length ≤ 255)
    (href : ∀ j, j < s₀.outs.length → ∃ c ∈ s₀.conns, c.outIdx = j)
    (hr : Reach act dwl (setup_ports now₀ act s₀) s) :
    ∀ j, j < s.outs.length →
      (getOut s.outs j).level = countAsserted s.conns j ∧
      (getOut s.outs j).pin =
        out_physical (getOut s.outs j).flags
          (decide (0 < countAsserted s.conns j)) :=
  (GoodState_reach act dwl (setup_ports now₀ act s₀) s hr
    (GoodState_setup now₀ act s₀ hwf hlen href)).2.2

/-- The output-pin table of target_cncjoints.c (lines 6-11): indices
0..5 are PC5 (limit, inverted), PC4, PC3 (limit, inverted), PC2, PC1
(limit, inverted), PC0. -/
def cncjoints_outs : List output_pin :=
  [⟨1, 0, false⟩, ⟨0, 0, false⟩, ⟨1, 0, false⟩,
   ⟨0, 0, false⟩, ⟨1, 0, false⟩, ⟨0, 0, false⟩]

/-- The `connections[]` table of target_cncjoints.c (lines 13-50): nine
connections with flags `NONE`, referencing the outputs above. -/
def cncjoints_conns : List connection :=
  [⟨0, 0, false, 0⟩, ⟨0, 0, false, 0⟩, ⟨0, 1, false, 0⟩,
   ⟨0, 2, false, 0⟩, ⟨0, 2, false, 0⟩, ⟨0, 3, false, 0⟩,
   ⟨0, 4, false, 0⟩, ⟨0, 4, false, 0⟩, ⟨0, 5, false, 0⟩]

/-- Witness for C1 on the fixed cncjoints table: setup at jiffy 0, one
scan step of connection 0 at jiffy 1000 with raw input high (firing the
0→1 transition of shared output PC5), checked at output 0. -/
theorem C1_witness :
    (getOut (scan_step (USEC_TO_JIFFIES 200) (USEC_TO_JIFFIES 100000)
      (setup_ports 0 (USEC_TO_JIFFIES 200)
        ⟨cncjoints_conns, cncjoints_outs⟩) 0 1000 true).outs 0).level =
    countAsserted (scan_step (USEC_TO_JIFFIES 200) (USEC_TO_JIFFIES 100000)
      (setup_ports 0 (USEC_TO_JIFFIES 200)
        ⟨cncjoints_conns, cncjoints_outs⟩) 0 1000 true).conns 0 ∧
    (getOut (scan_step (USEC_TO_JIFFIES 200) (USEC_TO_JIFFIES 100000)
      (setup_ports 0 (USEC_TO_JIFFIES 200)
        ⟨cncjoints_conns, cncjoints_outs⟩) 0 1000 true).outs 0).pin =
    out_physical (getOut (scan_step (USEC_TO_JIFFIES 200)
      (USEC_TO_JIFFIES 100000) (setup_ports 0 (USEC_TO_JIFFIES 200)
        ⟨cncjoints_conns, cncjoints_outs⟩) 0 1000 true).outs 0).flags
      (decide (0 < countAsserted (scan_step (USEC_TO_JIFFIES 200)
        (USEC_TO_JIFFIES 100000) (setup_ports 0 (USEC_TO_JIFFIES 200)
          ⟨cncjoints_conns, cncjoints_outs⟩) 0 1000 true).conns 0)) := by
  have h := C1_aggregator_invariant (USEC_TO_JIFFIES 200)
    (USEC_TO_JIFFIES 100000) 0 ⟨cncjoints_conns, cncjoints_outs⟩
    (scan_step (USEC_TO_JIFFIES 200) (USEC_TO_JIFFIES 100000)
      (setup_ports 0 (USEC_TO_JIFFIES 200)
        ⟨cncjoints_conns, cncjoints_outs⟩) 0 1000 true)
    (by decide) (by decide) (by decide)
    (Reach.step _ 0 1000 true (Reach.base))
  exact h 0 (by decide)

/-! ## The jiffies clock (`jiffies_high16`, `TIMER1_OVF_vect`,
`get_jiffies`, main.c lines 199-253)

Following the claim's model, the clock state is the 16-bit hardware
counter (represented by the ghost total tick count `T`, of which the
counter register is `T % 2^16`), the software high word `high`
(`jiffies_high16`, a `uint16_t`), and the overflow-pending flag `tov`
(`TIFR1` bit `TOV1`).  It is stepped by hardware ticks (which set the
pending flag on 16-bit wrap), by the overflow handler (which adds one to
the high word — i.e. exactly `2^16` to the combined counter — and whose
entry clears the pending flag), and by `get_jiffies` reads using the
check-pending/apply/retry protocol.  The scheduling side condition
`wrapOK` states that no overflow is lost: a tick that wraps the counter
only occurs once the previous overflow has been accounted (the handler
runs well within one 65536-tick counter period). -/

/-- Clock state: ghost total tick count `T` (the hardware counter reads
`T % 2^16`), the software high word, and the overflow-pending flag. -/
structure Clock where
  T : Nat
  high : Nat
  tov : Bool
  deriving Repr, DecidableEq

/-- One hardware tick: the counter advances; if it wraps to 0, the
overflow flag becomes pending. -/
def tick (c : Clock) : Clock :=
  ⟨c.T + 1, c.high, c.tov || decide ((c.T + 1) % 2 ^ 16 = 0)⟩

/-- No-lost-overflow side condition for one tick: if this tick wraps the
counter, the previous overflow has already been accounted. -/
def wrapOK (c : Clock) : Prop := (c.T + 1) % 2 ^ 16 = 0 → c.tov = false

/-- `n` hardware ticks. -/
def ticksRun : Nat → Clock → Clock
  | 0, c => c
  | n + 1, c => ticksRun n (tick c)

/-- `wrapOK` for each of `n` consecutive ticks. -/
def TicksOK : Nat → Clock → Prop
  | 0, _ => True
  | n + 1, c => wrapOK c ∧ TicksOK n (tick c)

/-- Accounting one pending overflow: the body of `TIMER1_OVF_vect`
(main.c lines 209-228, `jiffies_high16++` with the flag cleared on
interrupt entry) and equally the in-read fix-up of `get_jiffies`
(main.c lines 238-241). -/
def handle_overflow (c : Clock) : Clock :=
  cond c.tov ⟨c.T, (c.high + 1) % 2 ^ 16, false⟩ c

/-- The clock representation invariant: the high word holds the number
of accounted overflows (all wraps so far, minus one if one is still
pending), as a `uint16_t`. -/
def ClockInv (c : Clock) : Prop :=
  c.high = (c.T / 2 ^ 16 - (cond c.tov 1 0)) % 2 ^ 16 ∧
  (c.tov = true → 2 ^ 16 ≤ c.T)

theorem ticksRun_T_high : ∀ (n : Nat) (c : Clock),
    (ticksRun n c).T = c.T + n ∧ (ticksRun n c).high = c.high := by
  intro n
  induction n with
  | zero => intro c; exact ⟨rfl, rfl⟩
  | succ m ih =>
    intro c
    show (ticksRun m (tick c)).T = c.T + (m + 1) ∧
      (ticksRun m (tick c)).high = c.high
    obtain ⟨h1, h2⟩ := ih (tick c)
    refine ⟨?_, h2⟩
    rw [h1]
    show c.T + 1 + m = c.T + (m + 1)
    omega

theorem ticksRun_no_wrap : ∀ (n : Nat) (c : Clock),
    (ticksRun n c).tov = false →
    c.tov = false ∧ (c.T + n) / 2 ^ 16 = c.T / 2 ^ 16 := by
  intro n
  induction n with
  | zero => intro c h; exact ⟨h, rfl⟩
  | succ m ih =>
    intro c h
    obtain ⟨h1, h2⟩ := ih (tick c) h
    have h1' : (c.tov || decide ((c.T + 1) % 2 ^ 16 = 0)) = false := h1
    have htf : c.tov = false := by
      cases hc : c.tov
      · rfl
      · rw [hc] at h1'
        simp at h1'
    have hnw : (c.T + 1) % 2 ^ 16 ≠ 0 := by
      intro hx
      rw [decide_eq_true hx] at h1'
      simp at h1'
    refine ⟨htf, ?_⟩
    have hT : (tick c).T = c.T + 1 := rfl
    rw [hT] at h2
    omega

theorem ClockInv_tick (c : Clock) (hok : wrapOK c) (h : ClockInv c) :
    ClockInv (tick c) := by
  obtain ⟨h1, h2⟩ := h
  unfold ClockInv
  by_cases hw : (c.T + 1) % 2 ^ 16 = 0
  · have htf : c.tov = false := hok hw
    have htov' : (tick c).tov = true := by
      show (c.tov || decide ((c.T + 1) % 2 ^ 16 = 0)) = true
      rw [htf, decide_eq_true hw]
      rfl
    have hT' : (tick c).T = c.T + 1 := rfl
    have hh' : (tick c).high = c.high := rfl
    rw [htov', hT', hh', Bool.cond_true]
    rw [htf, Bool.cond_false] at h1
    constructor
    · omega
    · intro _
      omega
  · have htov' : (tick c).tov = c.tov := by
      show (c.tov || decide ((c.T + 1) % 2 ^ 16 = 0)) = c.tov
      rw [decide_eq_false hw]
      exact Bool.or_false c.tov
    have hT' : (tick c).T = c.T + 1 := rfl
    have hh' : (tick c).high = c.high := rfl
    rw [htov', hT', hh']
    have hdiv : (c.T + 1) / 2 ^ 16 = c.T / 2 ^ 16 := by omega
    rw [hdiv]
    exact ⟨h1, fun ht => by have := h2 ht; omega⟩

theorem ClockInv_ticksRun : ∀ (n : Nat) (c : Clock), TicksOK n c →
    ClockInv c → ClockInv (ticksRun n c) := by
  intro n
  induction n with
  | zero => intro c _ h; exact h
  | succ m ih =>
    intro c hok h
    exact ih (tick c) hok.2 (ClockInv_tick c hok.1 h)

theorem ClockInv_handle (c : Clock) (h : ClockInv c) :
    ClockInv (handle_overflow c) := by
  obtain ⟨h1, h2⟩ := h
  unfold ClockInv handle_overflow
  cases htov : c.tov
  · simp only [Bool.cond_false]
    exact ⟨h1, h2⟩
  · simp only [Bool.cond_true]
    rw [htov, Bool.cond_true] at h1
    have hge := h2 htov
    constructor
    · show (c.high + 1) % 2 ^ 16 = (c.T / 2 ^ 16 - cond false 1 0) % 2 ^ 16
      rw [Bool.cond_false]
      omega
    · intro hcontra
      simp at hcontra

theorem handle_T (c : Clock) : (handle_overflow c).T = c.T := by
  unfold handle_overflow
  cases htov : c.tov
  · rw [Bool.cond_false]
  · rw [Bool.cond_true]

theorem handle_tov (c : Clock) : (handle_overflow c).tov = false := by
  unfold handle_overflow
  cases htov : c.tov
  · rw [Bool.cond_false]
    exact htov
  · rw [Bool.cond_true]

/-- Clock state when `get_jiffies` (main.c lines 230-253) reaches the
fix-up at the top of a loop iteration: `q.1` ticks elapse first, then
the pending-overflow check/apply runs (atomically, as the claim's model
prescribes). -/
def gj_st1 (c : Clock) (q : Nat × Nat × Nat × Nat) : Clock :=
  handle_overflow (ticksRun q.1 c)

/-- Clock state at the `low = TCNT1` read: `q.2.1` further ticks. -/
def gj_st2 (c : Clock) (q : Nat × Nat × Nat × Nat) : Clock :=
  ticksRun q.2.1 (gj_st1 c q)

/-- Clock state at the `high = jiffies_high16` read: `q.2.2.1` further
ticks. -/
def gj_st3 (c : Clock) (q : Nat × Nat × Nat × Nat) : Clock :=
  ticksRun q.2.2.1 (gj_st2 c q)

/-- Clock state at the final `TIFR1 & TOV1` re-check: `q.2.2.2` further
ticks. -/
def gj_st4 (c : Clock) (q : Nat × Nat × Nat × Nat) : Clock :=
  ticksRun q.2.2.2 (gj_st3 c q)

/-- `get_jiffies` (main.c lines 230-253): per loop iteration, fix up a
pending overflow, sample `low` from the hardware counter and `high`
from the software word (with ticks interleaving at every point, encoded
by the schedule `q`), and re-check the overflow flag; if it became
pending during the sample, retry, else return `(high << 16) | low`
(here written `high * 2^16 + low`, equal for the in-range values).  The
schedule list bounds the retries; `none` means the schedule ended
mid-call. -/
def get_jiffies : Clock → List (Nat × Nat × Nat × Nat) → Option (Nat × Clock)
  | _, [] => none
  | c, q :: qs =>
    if (gj_st4 c q).tov then get_jiffies (gj_st4 c q) qs
    else some ((gj_st3 c q).high * 2 ^ 16 + (gj_st2 c q).T % 2 ^ 16,
      gj_st4 c q)

/-- The no-lost-overflow condition over every tick of a `get_jiffies`
schedule. -/
def SchedOK : Clock → List (Nat × Nat × Nat × Nat) → Prop
  | _, [] => True
  | c, q :: qs =>
    TicksOK q.1 c ∧ TicksOK q.2.1 (gj_st1 c q) ∧
    TicksOK q.2.2.1 (gj_st2 c q) ∧ TicksOK q.2.2.2 (gj_st3 c q) ∧
    (if (gj_st4 c q).tov then SchedOK (gj_st4 c q) qs else True)

/-- A successful `get_jiffies` call preserves the clock invariant, never
rewinds the tick count, and returns the true tick count modulo `2^32`
sampled at its linearisation point (the `low` read of the final
iteration). -/
theorem get_jiffies_spec :
    ∀ (qs : List (Nat × Nat × Nat × Nat)) (c : Clock) (r : Nat) (c' : Clock),
      ClockInv c → SchedOK c qs → get_jiffies c qs = some (r, c') →
      ClockInv c' ∧ c.T ≤ c'.T ∧
      ∃ Tl, c.T ≤ Tl ∧ Tl ≤ c'.T ∧ r = Tl % 2 ^ 32 := by
  intro qs
  induction qs with
  | nil =>
    intro c r c' _ _ h
    simp [get_jiffies] at h
  | cons q qs ih =>
    intro c r c' hinv hsched hgj
    obtain ⟨hok1, hok2, hok3, hok4, hrest⟩ := hsched
    have hinv1 : ClockInv (gj_st1 c q) :=
      ClockInv_handle _ (ClockInv_ticksRun _ _ hok1 hinv)
    have hinv2 : ClockInv (gj_st2 c q) := ClockInv_ticksRun _ _ hok2 hinv1
    have hinv3 : ClockInv (gj_st3 c q) := ClockInv_ticksRun _ _ hok3 hinv2
    have hinv4 : ClockInv (gj_st4 c q) := ClockInv_ticksRun _ _ hok4 hinv3
    have hT1 : (gj_st1 c q).T = c.T + q.1 := by
      unfold gj_st1
      rw [handle_T]
      exact (ticksRun_T_high q.1 c).1
    have hT2 : (gj_st2 c q).T = (gj_st1 c q).T + q.2.1 :=
      (ticksRun_T_high q.2.1 (gj_st1 c q)).1
    have hT3 : (gj_st3 c q).T = (gj_st2 c q).T + q.2.2.1 :=
      (ticksRun_T_high q.2.2.1 (gj_st2 c q)).1
    have hT4 : (gj_st4 c q).T = (gj_st3 c q).T + q.2.2.2 :=
      (ticksRun_T_high q.2.2.2 (gj_st3 c q)).1
    cases htov : (gj_st4 c q).tov
    · -- return path
      rw [get_jiffies, htov, if_neg (by simp)] at hgj
      have heq : r = (gj_st3 c q).high * 2 ^ 16 + (gj_st2 c q).T % 2 ^ 16 ∧
          c' = gj_st4 c q := by
        have := Option.some.inj hgj
        exact ⟨(Prod.mk.injEq _ _ _ _ ▸ this).1.symm,
          (Prod.mk.injEq _ _ _ _ ▸ this).2.symm⟩
      obtain ⟨hr, hc'⟩ := heq
      -- no wrap happened after the fix-up
      have hnw34 := ticksRun_no_wrap q.2.2.2 (gj_st3 c q) htov
      have hnw23 := ticksRun_no_wrap q.2.2.1 (gj_st2 c q) hnw34.1
      have hh3 : (gj_st3 c q).high = (gj_st2 c q).high :=
        (ticksRun_T_high q.2.2.1 (gj_st2 c q)).2
      -- invariant at the low-read point with no pending overflow
      have hhigh2 : (gj_st2 c q).high =
          ((gj_st2 c q).T / 2 ^ 16) % 2 ^ 16 := by
        have := hinv2.1
        rw [hnw23.1, Bool.cond_false] at this
        simpa using this
      refine ⟨hc' ▸ hinv4, ?_, (gj_st2 c q).T, ?_, ?_, ?_⟩
      · rw [hc', hT4, hT3, hT2, hT1]
        omega
      · rw [hT2, hT1]
        omega
      · rw [hc', hT4, hT3]
        omega
      · rw [hr, hh3, hhigh2]
        omega
    · -- retry path
      rw [get_jiffies, htov, if_pos (by simp)] at hgj
      rw [htov, if_pos (by simp)] at hrest
      obtain ⟨hinv', hmono, Tl, hl1, hl2, hl3⟩ :=
        ih (gj_st4 c q) r c' hinv4 hrest hgj
      refine ⟨hinv', ?_, Tl, ?_, hl2, hl3⟩
      · omega
      · omega

/-- Clock evolution between two `get_jiffies` calls: any interleaving of
hardware ticks (each respecting the no-lost-overflow condition) and runs
of the overflow interrupt handler. -/
inductive Evolve (c : Clock) : Clock → Prop
  | refl : Evolve c c
  | step_tick (c' : Clock) : Evolve c c' → wrapOK c' → Evolve c (tick c')
  | step_irq (c' : Clock) : Evolve c c' → Evolve c (handle_overflow c')

theorem Evolve_spec (c c' : Clock) (h : Evolve c c') (hinv : ClockInv c) :
    ClockInv c' ∧ c.T ≤ c'.T := by
  induction h with
  | refl => exact ⟨hinv, le_rfl⟩
  | step_tick b hab hok ih =>
    refine ⟨ClockInv_tick b hok ih.1, ?_⟩
    have hT : (tick b).T = b.T + 1 := rfl
    have := ih.2
    omega
  | step_irq b hab ih =>
    refine ⟨ClockInv_handle b ih.1, ?_⟩
    rw [handle_T]
    exact ih.2

/-- C4: in the claim's model of the clock — hardware ticks setting the
pending flag on 16-bit wrap, an overflow handler that adds exactly
`2^16`, and `get_jiffies` reads using the check-pending/apply/retry
protocol — under the no-lost-overflow scheduling condition, any two
`get_jiffies` results sampled in program order satisfy: the later result
is never `time_before` the earlier one as long as the true elapsed ticks
of the whole execution stay below the `2^31` horizon, and each result
equals the true tick count modulo `2^32` at a linearisation instant
inside its call. -/
theorem C4_clock_monotonic (c₀ c₁ c₂ c₃ c₄ : Clock)
    (qs₁ qs₂ : List (Nat × Nat × Nat × Nat)) (r₁ r₂ : Nat)
    (hinv : ClockInv c₀)
    (he₁ : Evolve c₀ c₁) (hs₁ : SchedOK c₁ qs₁)
    (hg₁ : get_jiffies c₁ qs₁ = some (r₁, c₂))
    (he₂ : Evolve c₂ c₃) (hs₂ : SchedOK c₃ qs₂)
    (hg₂ : get_jiffies c₃ qs₂ = some (r₂, c₄))
    (hhor : c₄.T - c₀.T < 2 ^ 31) :
    time_before r₂ r₁ = false ∧
    ∃ T₁ T₂, c₁.T ≤ T₁ ∧ T₁ ≤ c₂.T ∧ c₃.T ≤ T₂ ∧ T₂ ≤ c₄.T ∧
      r₁ = T₁ % 2 ^ 32 ∧ r₂ = T₂ % 2 ^ 32 ∧ T₁ ≤ T₂ := by
  obtain ⟨hinv₁, hm₀₁⟩ := Evolve_spec c₀ c₁ he₁ hinv
  obtain ⟨hinv₂, hm₁₂, T₁, hT₁a, hT₁b, hr₁⟩ :=
    get_jiffies_spec qs₁ c₁ r₁ c₂ hinv₁ hs₁ hg₁
  obtain ⟨hinv₃, hm₂₃⟩ := Evolve_spec c₂ c₃ he₂ hinv₂
  obtain ⟨hinv₄, hm₃₄, T₂, hT₂a, hT₂b, hr₂⟩ :=
    get_jiffies_spec qs₂ c₃ r₂ c₄ hinv₃ hs₂ hg₂
  have hle : T₁ ≤ T₂ := by omega
  have hdist : T₂ - T₁ < 2 ^ 31 := by omega
  refine ⟨?_, T₁, T₂, hT₁a, hT₁b, hT₂a, hT₂b, hr₁, hr₂, hle⟩
  show time_after r₁ r₂ = false
  rw [hr₁, hr₂, time_after_mod_left, time_after_mod_right]
  exact time_after_false_of_le T₁ T₂ hle hdist

/-- Witness for C4 at the initial clock state with trivial evolutions
and one-iteration schedules with no interleaved ticks: both calls return
0 and the conclusion holds. -/
theorem C4_witness :
    time_before 0 0 = false ∧
    ∃ T₁ T₂, (⟨0, 0, false⟩ : Clock).T ≤ T₁ ∧ T₁ ≤ (⟨0, 0, false⟩ : Clock).T ∧
      (⟨0, 0, false⟩ : Clock).T ≤ T₂ ∧ T₂ ≤ (⟨0, 0, false⟩ : Clock).T ∧
      (0 : Nat) = T₁ % 2 ^ 32 ∧ (0 : Nat) = T₂ % 2 ^ 32 ∧ T₁ ≤ T₂ :=
  C4_clock_monotonic ⟨0, 0, false⟩ ⟨0, 0, false⟩ ⟨0, 0, false⟩ ⟨0, 0, false⟩
    ⟨0, 0, false⟩ [(0, 0, 0, 0)] [(0, 0, 0, 0)] 0 0
    ⟨rfl, fun h => nomatch h⟩
    Evolve.refl ⟨trivial, trivial, trivial, trivial, trivial⟩ rfl
    Evolve.refl ⟨trivial, trivial, trivial, trivial, trivial⟩ rfl
    (by decide)
